import Mathlib

/-!
Verification development for the docwen documentation-consistency checker.

The Rust sources are shallowly embedded over `List Char` (source text) and
`List String` (file-system paths, one component per element).  Machine
integers (`usize` / `isize`) are modelled as `Nat` / `Int` with explicit
wrap-arounds modulo `2 ^ 64` where the Rust code performs `as` casts.  The
external tree-sitter parser is not part of the repository; functions that
consume its syntax tree (`extract_functions`, `get_name_and_params`) are
abstracted by an `extract` parameter, while all string-level computation
taken from `c_parse.rs` and `docwen_check.rs` is embedded directly.
-/

namespace Docwen

/-- Unicode `White_Space` code points, as used by Rust's `str::trim` /
`str::trim_start` (`char::is_whitespace`). -/
def rustIsWhitespace (c : Char) : Bool :=
  let n := c.toNat
  (9 ≤ n && n ≤ 13) || n == 32 || n == 133 || n == 160 || n == 5760 ||
    (8192 ≤ n && n ≤ 8202) || n == 8232 || n == 8233 || n == 8239 ||
    n == 8287 || n == 12288

/-- Model of Rust `str::trim_start`. -/
def trimStart : List Char → List Char
  | [] => []
  | c :: cs => if rustIsWhitespace c then trimStart cs else c :: cs

/-- Model of Rust `str::trim_end`. -/
def trimEnd (cs : List Char) : List Char :=
  (trimStart cs.reverse).reverse

/-- Model of Rust `str::trim`. -/
def rustTrim (cs : List Char) : List Char :=
  trimEnd (trimStart cs)

/-- Model of Rust `str::strip_suffix` with a one-character pattern. -/
def stripSuffixChar (c : Char) (l : List Char) : Option (List Char) :=
  match l.reverse with
  | [] => none
  | d :: rest => if d = c then some rest.reverse else none

/-- Line terminator characters used by `mask_preprocessor`'s
`split_inclusive(['\n', '\r'])`. -/
def isEolChar (c : Char) : Bool :=
  c == '\n' || c == '\r'

/-- Model of Rust `str::split_inclusive(['\n', '\r'])`: splits the text into
segments, each ending right after a terminator character (the final segment
may lack one). -/
def splitInclusive : List Char → List (List Char)
  | [] => []
  | c :: cs =>
    if isEolChar c then [c] :: splitInclusive cs
    else
      match splitInclusive cs with
      | [] => [[c]]
      | s :: rest => (c :: s) :: rest

/-- The body/terminator split performed at the top of `mask_preprocessor`'s
loop: `strip_suffix('\n')` then `strip_suffix('\r')`. -/
def lineBody (seg : List Char) : List Char × List Char :=
  match stripSuffixChar '\n' seg with
  | some rest =>
    match stripSuffixChar '\r' rest with
    | some r2 => (r2, ['\r', '\n'])
    | none => (rest, ['\n'])
  | none => (seg, [])

/-- Test `body.trim_start().starts_with('#')` from `mask_preprocessor`. -/
def startsWithHash (body : List Char) : Bool :=
  match trimStart body with
  | [] => false
  | c :: _ => c == '#'

/-- Test `body.as_bytes().last() == Some(&b'\\')` from `mask_preprocessor`. -/
def endsBackslash (body : List Char) : Bool :=
  body.getLast? == some '\\'

/-- The per-segment loop of `mask_preprocessor`: a segment is blanked when the
continuation flag is set or its body starts (after leading whitespace) with
`#`; a blanked segment ending in a backslash sets the flag for the next one. -/
def processSegs : Bool → List (List Char) → List (List Char)
  | _, [] => []
  | cont, seg :: rest =>
    if cont || startsWithHash (lineBody seg).1 then
      (List.replicate (lineBody seg).1.length ' ' ++ (lineBody seg).2) ::
        processSegs (endsBackslash (lineBody seg).1) rest
    else
      ((lineBody seg).1 ++ (lineBody seg).2) :: processSegs false rest

/-- Which segments `processSegs` blanks, with the same continuation chain. -/
def maskFlags : Bool → List (List Char) → List Bool
  | _, [] => []
  | cont, seg :: rest =>
    (cont || startsWithHash (lineBody seg).1) ::
      maskFlags ((cont || startsWithHash (lineBody seg).1) && endsBackslash (lineBody seg).1)
        rest

/-- Model of `c_parse::mask_preprocessor`. -/
def mask_preprocessor (src : List Char) : List Char :=
  (processSegs false (splitInclusive src)).flatten

/-- Physical lines split inclusively at `'\n'` only.  This is the
line notion of the specification (section 4.1): a physical line together with
its `"\n"` or `"\r\n"` terminator. -/
def splitLinesNl : List Char → List (List Char)
  | [] => []
  | c :: cs =>
    if c = '\n' then [c] :: splitLinesNl cs
    else
      match splitLinesNl cs with
      | [] => [[c]]
      | s :: rest => (c :: s) :: rest

/-- The masker as the specification words it: every physical line whose first
non-whitespace character is `#`, or which continues a blanked line ending in a
trailing backslash, has its body replaced by spaces while its terminator
(`"\n"` or `"\r\n"`) is kept verbatim; other lines are kept unchanged. -/
def maskSpecLines : Bool → List (List Char) → List (List Char)
  | _, [] => []
  | cont, line :: rest =>
    (if cont || startsWithHash (lineBody line).1 then
      List.replicate (lineBody line).1.length ' ' ++ (lineBody line).2
    else line) ::
      maskSpecLines ((cont || startsWithHash (lineBody line).1) &&
        endsBackslash (lineBody line).1) rest

/-- Specification-side masker (section 4.1 of the spec, read literally). -/
def maskSpec (src : List Char) : List Char :=
  (maskSpecLines false (splitLinesNl src)).flatten

/-- Strip one trailing `'\r'`, as Rust `str::lines` does on each line. -/
def stripTrailingCR (l : List Char) : List Char :=
  match stripSuffixChar '\r' l with
  | some r => r
  | none => l

/-- Exclusive split at `'\n'`; always returns at least one (possibly empty)
part. -/
def splitOnNlExclusive : List Char → List (List Char)
  | [] => [[]]
  | c :: cs =>
    if c = '\n' then [] :: splitOnNlExclusive cs
    else
      match splitOnNlExclusive cs with
      | [] => [[c]]
      | p :: ps => (c :: p) :: ps

/-- Model of Rust `str::lines`: split at `'\n'`, drop a final empty part
produced by a trailing newline (so `""` has no lines), strip one trailing
`'\r'` from each line. -/
def rustLines (src : List Char) : List (List Char) :=
  let parts := splitOnNlExclusive src
  let parts := if parts.getLast? = some [] then parts.dropLast else parts
  parts.map stripTrailingCR

/-- Reinterpretation `usize as isize` (two's complement, 64 bit). -/
def usizeAsIsize (n : Nat) : Int :=
  if n % 2 ^ 64 < 2 ^ 63 then ((n % 2 ^ 64 : Nat) : Int)
  else ((n % 2 ^ 64 : Nat) : Int) - 2 ^ 64

/-- Wrap an integer into the `isize` range (release-mode wrapping addition). -/
def isizeWrap (i : Int) : Int :=
  (i + 2 ^ 63) % 2 ^ 64 - 2 ^ 63

/-- Reinterpretation `isize as usize` (two's complement, 64 bit). -/
def intAsUsize (i : Int) : Nat :=
  (i % 2 ^ 64).toNat

/-- Model of `LineSource::trimmed_line_by_offset` from `docwen_check.rs`: the
row is `init_row as isize + offset`, cast to `usize` and looked up with
`lines().nth(..)`; a missing row yields the `anyhow` context error
`"Called nth({row})"`, a present row is returned trimmed. -/
def trimmed_line_by_offset (src : List Char) (init_row : Nat) (offset : Int) :
    Except String (List Char) :=
  let row : Int := isizeWrap (usizeAsIsize init_row + offset)
  match (rustLines src).get? (intAsUsize row) with
  | some line => Except.ok (rustTrim line)
  | none => Except.error ("Called nth(" ++ toString row ++ ")")

/-- The comment test of `check`'s loop:
`s.starts_with("//") || s.starts_with("/*") || s.starts_with("*")`. -/
def isCommentLine (s : List Char) : Bool :=
  List.isPrefixOf ("//".toList) s || List.isPrefixOf ("/*".toList) s ||
    List.isPrefixOf ("*".toList) s

/-- Model of `collect::<Result<_, _>>()`: evaluate left to right, stopping at
the first error. -/
def mapME {α β : Type} (f : α → Except String β) : List α → Except String (List β)
  | [] => Except.ok []
  | a :: as =>
    match f a with
    | Except.error e => Except.error e
    | Except.ok b =>
      match mapME f as with
      | Except.error e => Except.error e
      | Except.ok bs => Except.ok (b :: bs)

/-- One `LineSource` per occurrence: the file's text and the occurrence's
start row. -/
def linesAt (sources : List (List Char × Nat)) (offset : Int) :
    Except String (List (List Char)) :=
  mapME (fun s => trimmed_line_by_offset s.1 s.2 offset) sources

/-- The backward scan loop of `check` over one identity's sources.  The fuel
argument only bounds the recursion; the Rust loop needs none because the line
lookup fails (with an error that aborts the whole check) once the offset moves
past the top of the shortest file, which also exhausts at most
`min init_row + 2 ≤ max init_row + 2` iterations. -/
def docScanLoop :
    Nat → List (List Char × Nat) → Int → List (List Char) →
      Except String (Option (List Char))
  | 0, _, _, _ => Except.error "fuel exhausted"
  | Nat.succ fuel, sources, offset, cur =>
    if cur.any isCommentLine then
      match cur.head? with
      | none => Except.error "Failed to get match_str"
      | some match_str =>
        if cur.any (fun f => f != match_str) then Except.ok (some match_str)
        else
          match linesAt sources (offset - 1) with
          | Except.error e => Except.error e
          | Except.ok next => docScanLoop fuel sources (offset - 1) next
    else Except.ok none

/-- The per-identity part of `check`: fetch the trimmed lines at offset `-1`,
then walk upward while some line is a comment, reporting the first
occurrence's line at the first disagreeing offset. -/
def docScan (sources : List (List Char × Nat)) : Except String (Option (List Char)) :=
  match linesAt sources (-1) with
  | Except.error e => Except.error e
  | Except.ok cur =>
    docScanLoop ((sources.map Prod.snd).foldr Nat.max 0 + 2) sources (-1) cur

/-- Position of one occurrence (`docwen_check::FilePosition`); the path is a
list of components. -/
structure FilePosition where
  path : List String
  row : Nat
  column : Nat
deriving DecidableEq, Repr

/-- Function identity (`docwen_check::FunctionID`); `c_parse.rs` and the test
suite construct it with the field name `name`. -/
structure FunctionID where
  name : List Char
  params : List Char
deriving DecidableEq, Repr

/-- Debug escaping of one character, as Rust's `{:?}` formatting of a path
performs on its inner string. -/
def debugEscapeChar (c : Char) : List Char :=
  if c = '"' then ['\\', '"']
  else if c = '\\' then ['\\', '\\']
  else if c = '\n' then ['\\', 'n']
  else if c = '\t' then ['\\', 't']
  else if c = '\r' then ['\\', 'r']
  else [c]

/-- Render a path (for `{:?}`, before escaping and quoting). -/
def pathRender (p : List String) : List Char :=
  (String.intercalate "/" p).toList

/-- Model of `format!("{:?}", path)`: the rendered path, Debug-escaped, in
double quotes. -/
def pathDebug (p : List String) : List Char :=
  '"' :: ((pathRender p).map debugEscapeChar).flatten ++ ['"']

/-- Model of `Path::parent`: drop the final component; `None` for the empty
path. -/
def parentOf (p : List String) : Option (List String) :=
  match p with
  | [] => none
  | _ => some p.dropLast

/-- Model of `Path::strip_prefix`: remove a component-wise prefix, `none` when
it is not a prefix. -/
def pathStrip (p parent : List String) : Option (List String) :=
  if List.isPrefixOf parent p then some (p.drop parent.length) else none

/-- Decimal rendering of a row or column number. -/
def natChars (n : Nat) : List Char :=
  (Nat.repr n).toList

/-- Model of `docwen_check::format_mismatch`: the offending line in quotes, a
newline, then `-> [` + comma-joined Debug-formatted `path:row:column` triples
+ `]`; each path is stripped of the toml file's parent directory when that is
a prefix of it, and kept as given otherwise. -/
def format_mismatch (match_str : List Char) (vec : List FilePosition)
    (toml_path : List String) : List Char :=
  let parent := (parentOf toml_path).getD toml_path
  let group_str := List.intercalate (", ".toList)
    (vec.map (fun p =>
      pathDebug ((pathStrip p.path parent).getD p.path) ++ (":".toList) ++
        natChars p.row ++ (":".toList) ++ natChars p.column))
  '"' :: match_str ++ '"' :: '\n' :: ("-> [".toList) ++ group_str ++ ("]".toList)

/-- One iteration of `check`'s outer loop for a single map entry: read every
occurrence's file, scan the doc block, and format at most one mismatch. -/
def processEntry (read : List String → Except String (List Char))
    (toml_path : List String) (entry : FunctionID × List FilePosition) :
    Except String (List (List Char)) :=
  match mapME (fun p =>
      match read p.path with
      | Except.error e => Except.error e
      | Except.ok src => Except.ok (src, p.row)) entry.2 with
  | Except.error e => Except.error e
  | Except.ok sources =>
    match docScan sources with
    | Except.error e => Except.error e
    | Except.ok none => Except.ok []
    | Except.ok (some line) => Except.ok [format_mismatch line entry.2 toml_path]

/-- Model of `check`'s mismatch collection over the identity map.  The map's
entries are passed as an explicit list because Rust's `HashMap` iteration
order (a fresh `RandomState` per map) is what determines the order in which
identities are visited. -/
def checkModel (read : List String → Except String (List Char))
    (toml_path : List String) (entries : List (FunctionID × List FilePosition)) :
    Except String (List (List Char)) :=
  match mapME (processEntry read toml_path) entries with
  | Except.error e => Except.error e
  | Except.ok ls => Except.ok ls.flatten

/-- Model of `map.entry(id).or_insert(Vec::new()).push(pos)`. -/
def insertPos : List (FunctionID × List FilePosition) → FunctionID → FilePosition →
    List (FunctionID × List FilePosition)
  | [], id, pos => [(id, [pos])]
  | (k, ps) :: rest, id, pos =>
    if k = id then (k, ps ++ [pos]) :: rest else (k, ps) :: insertPos rest id pos

/-- Insert all of one file's extracted declarator identities.  `extract`
abstracts the external tree-sitter pass of `extract_functions` (mask, parse,
walk); it returns the `(FunctionID, row, column)` triples found in a file. -/
def extractInsert (extract : List String → List (FunctionID × Nat × Nat))
    (path : List String) (m : List (FunctionID × List FilePosition)) :
    List (FunctionID × List FilePosition) :=
  (extract path).foldl (fun m e => insertPos m e.1 ⟨path, e.2.1, e.2.2⟩) m

/-- Model of `c_parse::find_function_positions`: accumulate every file's
extracted positions into one map, then `retain(|_, vec| vec.len() > 1)`. -/
def find_function_positions (extract : List String → List (FunctionID × Nat × Nat))
    (paths : List (List String)) : List (FunctionID × List FilePosition) :=
  (paths.foldl (fun m p => extractInsert extract p m) []).filter
    (fun e => 1 < e.2.length)

/-- The separator `"::"` used by qualified names. -/
def sepColons : List Char := [':', ':']

/-- Three consecutive colons; its absence makes "last `::`" unambiguous. -/
def triColons : List Char := [':', ':', ':']

/-- Whether `"::"` occurs as a substring (leftmost-scan, as `str::find`). -/
def containsSep : List Char → Bool
  | ':' :: ':' :: _ => true
  | _ :: rest => containsSep rest
  | [] => false

/-- Whether `":::"` occurs as a substring; its absence makes "the last `::`"
unambiguous (no overlapping matches). -/
def containsTri : List Char → Bool
  | ':' :: ':' :: ':' :: _ => true
  | _ :: rest => containsTri rest
  | [] => false

/-- Worker for `splitOnColons`, carrying the current piece reversed. -/
def splitColAux : List Char → List Char → List (List Char)
  | acc, ':' :: ':' :: rest => acc.reverse :: splitColAux [] rest
  | acc, c :: rest => splitColAux (c :: acc) rest
  | acc, [] => [acc.reverse]

/-- Model of Rust `str::split("::")`: leftmost-first, non-overlapping pieces
(`"a:::b"` gives `["a", ":b"]`, `"a::::b"` gives `["a", "", "b"]`). -/
def splitOnColons (cs : List Char) : List (List Char) :=
  splitColAux [] cs

/-- Model of `name.split("::").last().unwrap_or(&name)` from
`get_function_id`'s unqualified branch. -/
def lastSegment (name : List Char) : List Char :=
  (splitOnColons name).getLast?.getD name

/-- Join a list of parts with a separator, as `Vec::join`. -/
def joinSep (sep : List Char) : List (List Char) → List Char
  | [] => []
  | [x] => x
  | x :: y :: r => x ++ sep ++ joinSep sep (y :: r)

/-- Model of `c_parse::get_qualified_name`.  `quals` is the list of enclosing
scope names collected while walking ancestors (innermost first), exactly what
the upward walk pushes before the final `reverse`. -/
def get_qualified_name (quals : List (List Char)) (func_name : List Char) : List Char :=
  if quals.reverse.isEmpty then func_name
  else joinSep sepColons quals.reverse ++ sepColons ++ func_name

/-- Model of `c_parse::get_function_id` after the external declarator walk has
produced the raw declarator name and optional parameter-list text; `quals` is
the ancestor scope-name chain (innermost first). -/
def get_function_id (rawName : List Char) (params : Option (List Char))
    (quals : List (List Char)) (with_qualifiers : Bool) : FunctionID :=
  if with_qualifiers then ⟨get_qualified_name quals rawName, params.getD ("()".toList)⟩
  else ⟨lastSegment rawName, params.getD ("()".toList)⟩

/-! Basic lemmas about the segment machinery. -/

theorem stripSuffixChar_eq_some {c : Char} {l r : List Char}
    (h : stripSuffixChar c l = some r) : l = r ++ [c] := by
  unfold stripSuffixChar at h
  cases hrev : l.reverse with
  | nil => rw [hrev] at h; exact absurd h (by simp)
  | cons d rest =>
    rw [hrev] at h
    dsimp only at h
    by_cases hdc : d = c
    · rw [if_pos hdc] at h
      have hr : rest.reverse = r := by injection h
      have hl : l = rest.reverse ++ [d] := by
        have h2 := congrArg List.reverse hrev
        simpa using h2
      rw [hl, hr, hdc]
    · rw [if_neg hdc] at h; exact absurd h (by simp)

theorem stripSuffixChar_append (c : Char) (b : List Char) :
    stripSuffixChar c (b ++ [c]) = some b := by
  unfold stripSuffixChar
  simp

theorem stripSuffixChar_of_getLast?_ne {c : Char} {l : List Char}
    (h : l.getLast? ≠ some c) : stripSuffixChar c l = none := by
  unfold stripSuffixChar
  cases hrev : l.reverse with
  | nil => rfl
  | cons d rest =>
    have hd : l.getLast? = some d := by
      rw [List.getLast?_eq_head?_reverse, hrev]
      rfl
    have hdc : d ≠ c := fun he => h (he ▸ hd)
    simp [hdc]

theorem lineBody_append (seg : List Char) : (lineBody seg).1 ++ (lineBody seg).2 = seg := by
  cases h1 : stripSuffixChar '\n' seg with
  | none => simp [lineBody, h1]
  | some rest =>
    have hseg := stripSuffixChar_eq_some h1
    cases h2 : stripSuffixChar '\r' rest with
    | none =>
      simp only [lineBody, h1, h2]
      exact hseg.symm
    | some r2 =>
      have hrest := stripSuffixChar_eq_some h2
      simp only [lineBody, h1, h2]
      rw [hseg, hrest]
      simp

theorem lineBody_eol_cases (seg : List Char) :
    (lineBody seg).2 = [] ∨ (lineBody seg).2 = ['\n'] ∨ (lineBody seg).2 = ['\r', '\n'] := by
  cases h1 : stripSuffixChar '\n' seg with
  | none => exact Or.inl (by simp [lineBody, h1])
  | some rest =>
    cases h2 : stripSuffixChar '\r' rest with
    | none => exact Or.inr (Or.inl (by simp [lineBody, h1, h2]))
    | some r2 => exact Or.inr (Or.inr (by simp [lineBody, h1, h2]))

theorem lineBody_of_nl {b : List Char} (hb : b.getLast? ≠ some '\r') :
    lineBody (b ++ ['\n']) = (b, ['\n']) := by
  have h1 : stripSuffixChar '\n' (b ++ ['\n']) = some b := stripSuffixChar_append _ _
  have h2 : stripSuffixChar '\r' b = none := stripSuffixChar_of_getLast?_ne hb
  simp [lineBody, h1, h2]

theorem lineBody_of_ne_nl {s : List Char} (hs : s.getLast? ≠ some '\n') :
    lineBody s = (s, []) := by
  have h1 : stripSuffixChar '\n' s = none := stripSuffixChar_of_getLast?_ne hs
  simp [lineBody, h1]

theorem splitInclusive_eq_nil_iff {cs : List Char} : splitInclusive cs = [] ↔ cs = [] := by
  constructor
  · intro h
    cases cs with
    | nil => rfl
    | cons c rest =>
      unfold splitInclusive at h
      by_cases he : isEolChar c = true
      · simp [he] at h
      · simp only [he] at h
        revert h
        cases splitInclusive rest <;> simp
  · intro h; rw [h]; rfl

theorem flatten_splitInclusive (cs : List Char) : (splitInclusive cs).flatten = cs := by
  induction cs with
  | nil => rfl
  | cons c rest ih =>
    unfold splitInclusive
    by_cases he : isEolChar c = true
    · simp [he, ih]
    · simp only [he]
      cases hs : splitInclusive rest with
      | nil =>
        have : rest = [] := splitInclusive_eq_nil_iff.mp hs
        simp [this]
      | cons s r2 =>
        rw [hs] at ih
        simpa using ih

/-! Whitespace and hash-test lemmas. -/

theorem rustIsWhitespace_space : rustIsWhitespace ' ' = true := by decide

theorem rustIsWhitespace_nl : rustIsWhitespace '\n' = true := by decide

theorem rustIsWhitespace_cr : rustIsWhitespace '\r' = true := by decide

theorem isEolChar_space : isEolChar ' ' = false := by decide

theorem trimStart_of_all_ws {l : List Char} (h : ∀ c ∈ l, rustIsWhitespace c = true) :
    trimStart l = [] := by
  induction l with
  | nil => rfl
  | cons c rest ih =>
    simp only [trimStart, if_pos (h c (List.mem_cons_self c rest))]
    exact ih fun x hx => h x (List.mem_cons_of_mem c hx)

theorem trimStart_ws_append {p z : List Char}
    (hp : ∀ c ∈ p, rustIsWhitespace c = true) :
    trimStart (p ++ z) = trimStart z := by
  induction p with
  | nil => rfl
  | cons c rest ih =>
    simp only [List.cons_append, trimStart, if_pos (hp c (List.mem_cons_self c rest))]
    exact ih fun x hx => hp x (List.mem_cons_of_mem c hx)

theorem startsWithHash_ws_append {p z : List Char}
    (hp : ∀ c ∈ p, rustIsWhitespace c = true) :
    startsWithHash (p ++ z) = startsWithHash z := by
  unfold startsWithHash
  rw [trimStart_ws_append hp]

theorem trimStart_append_of_ne_nil {a b : List Char} (h : trimStart a ≠ []) :
    trimStart (a ++ b) = trimStart a ++ b := by
  induction a with
  | nil => exact absurd rfl h
  | cons c rest ih =>
    by_cases hc : rustIsWhitespace c = true
    · have h' : trimStart rest ≠ [] := by
        intro hr
        apply h
        simp only [trimStart, if_pos hc]
        exact hr
      calc trimStart ((c :: rest) ++ b) = trimStart (rest ++ b) := by
            simp only [List.cons_append, trimStart, if_pos hc]; rfl
        _ = trimStart rest ++ b := ih h'
        _ = trimStart (c :: rest) ++ b := by simp only [trimStart, if_pos hc]
    · calc trimStart ((c :: rest) ++ b) = c :: (rest ++ b) := by
            simp only [List.cons_append, trimStart, if_neg hc]; rfl
        _ = (c :: rest) ++ b := by simp
        _ = trimStart (c :: rest) ++ b := by simp only [trimStart, if_neg hc]

theorem startsWithHash_append_ws {z w : List Char}
    (hw : ∀ c ∈ w, rustIsWhitespace c = true) :
    startsWithHash (z ++ w) = startsWithHash z := by
  cases hz : trimStart z with
  | nil =>
    have hzw : ∀ c ∈ z, rustIsWhitespace c = true := by
      intro c hc
      by_contra hcw
      have : trimStart z ≠ [] := by
        clear hz
        induction z with
        | nil => cases hc
        | cons d rest ih =>
          unfold trimStart
          by_cases hd : rustIsWhitespace d = true
          · rw [if_pos hd]
            rcases List.mem_cons.mp hc with h1 | h1
            · exact absurd (h1 ▸ hd) hcw
            · exact ih h1
          · rw [if_neg hd]; simp
      exact this hz
    have h1 : startsWithHash (z ++ w) = startsWithHash w :=
      startsWithHash_ws_append hzw
    have h2 : startsWithHash w = false := by
      unfold startsWithHash
      rw [trimStart_of_all_ws hw]
    have h3 : startsWithHash z = false := by
      unfold startsWithHash
      rw [hz]
    rw [h1, h2, h3]
  | cons c rest =>
    have h1 : trimStart (z ++ w) = trimStart z ++ w :=
      trimStart_append_of_ne_nil (by rw [hz]; simp)
    unfold startsWithHash
    rw [h1, hz]
    rfl

theorem startsWithHash_all_ws {l : List Char} (h : ∀ c ∈ l, rustIsWhitespace c = true) :
    startsWithHash l = false := by
  unfold startsWithHash
  rw [trimStart_of_all_ws h]

theorem startsWithHash_lineBody (t : List Char) :
    startsWithHash (lineBody t).1 = startsWithHash t := by
  have hw : ∀ c ∈ (lineBody t).2, rustIsWhitespace c = true := by
    rcases lineBody_eol_cases t with h | h | h <;> rw [h] <;> intro c hc <;>
      simp at hc
    · rw [hc]; exact rustIsWhitespace_nl
    · rcases hc with hc | hc
      · rw [hc]; exact rustIsWhitespace_cr
      · rw [hc]; exact rustIsWhitespace_nl
  calc startsWithHash (lineBody t).1
      = startsWithHash ((lineBody t).1 ++ (lineBody t).2) :=
        (startsWithHash_append_ws hw).symm
    _ = startsWithHash t := by rw [lineBody_append]

/-! Length preservation and untouched-segment preservation of the masker. -/

theorem processSegs_flatten_length (cont : Bool) (segs : List (List Char)) :
    ((processSegs cont segs).flatten).length = segs.flatten.length := by
  induction segs generalizing cont with
  | nil => rfl
  | cons seg rest ih =>
    have hseg : (lineBody seg).1.length + (lineBody seg).2.length = seg.length := by
      rw [← List.length_append, lineBody_append]
    by_cases hm : (cont || startsWithHash (lineBody seg).1) = true
    · simp only [processSegs, if_pos hm, List.flatten_cons, List.length_append,
        List.length_replicate, ih]
      omega
    · simp only [processSegs, if_neg hm, List.flatten_cons, List.length_append,
        ih, lineBody_append]

theorem mask_preprocessor_length (src : List Char) :
    (mask_preprocessor src).length = src.length := by
  unfold mask_preprocessor
  rw [processSegs_flatten_length, flatten_splitInclusive]

theorem processSegs_get?_of_flag_false :
    ∀ (segs : List (List Char)) (cont : Bool) (i : Nat),
      (maskFlags cont segs).get? i = some false →
      (processSegs cont segs).get? i = segs.get? i := by
  intro segs
  induction segs with
  | nil => intro cont i h; cases h
  | cons seg rest ih =>
    intro cont i h
    cases i with
    | zero =>
      simp only [maskFlags, List.get?] at h
      have hm : (cont || startsWithHash (lineBody seg).1) = false := by
        injection h
      simp only [processSegs, hm, Bool.false_eq_true, if_false, List.get?]
      rw [lineBody_append]
    | succ n =>
      simp only [maskFlags, List.get?] at h
      by_cases hm : (cont || startsWithHash (lineBody seg).1) = true
      · simp only [processSegs, if_pos hm, List.get?]
        rw [hm] at h
        simp only [Bool.true_and] at h
        exact ih _ _ h
      · have hm' : (cont || startsWithHash (lineBody seg).1) = false := by
          revert hm; cases (cont || startsWithHash (lineBody seg).1) <;> simp
        simp only [processSegs, hm', Bool.false_eq_true, if_false, List.get?]
        rw [hm'] at h
        simp only [Bool.false_and] at h
        exact ih _ _ h

/-! Structure of `splitInclusive`'s segments. -/

theorem splitInclusive_cons_eol {c : Char} {cs : List Char} (h : isEolChar c = true) :
    splitInclusive (c :: cs) = [c] :: splitInclusive cs := by
  simp [splitInclusive, h]

theorem splitInclusive_cons_noeol_nil {c : Char} {cs : List Char}
    (h : isEolChar c = false) (h2 : splitInclusive cs = []) :
    splitInclusive (c :: cs) = [[c]] := by
  simp [splitInclusive, h, h2]

theorem splitInclusive_cons_noeol_cons {c : Char} {cs s : List Char}
    {rest : List (List Char)} (h : isEolChar c = false)
    (h2 : splitInclusive cs = s :: rest) :
    splitInclusive (c :: cs) = (c :: s) :: rest := by
  simp [splitInclusive, h, h2]

theorem splitInclusive_mem_wf :
    ∀ (cs : List Char) (seg : List Char), seg ∈ splitInclusive cs →
      ∃ b c, seg = b ++ [c] ∧ ∀ x ∈ b, isEolChar x = false := by
  intro cs
  induction cs with
  | nil => intro seg h; cases h
  | cons c rest ih =>
    intro seg h
    by_cases he : isEolChar c = true
    · simp only [splitInclusive, if_pos he] at h
      rcases List.mem_cons.mp h with h1 | h1
      · exact ⟨[], c, by rw [h1]; rfl, by intro x hx; cases hx⟩
      · exact ih seg h1
    · simp only [splitInclusive, he, Bool.false_eq_true, if_false] at h
      cases hs : splitInclusive rest with
      | nil =>
        rw [hs] at h
        rcases List.mem_cons.mp h with h1 | h1
        · refine ⟨[], c, by rw [h1]; rfl, by intro x hx; cases hx⟩
        · cases h1
      | cons s r2 =>
        rw [hs] at h
        rcases List.mem_cons.mp h with h1 | h1
        · obtain ⟨b0, c0, hs0, hb0⟩ := ih s (hs ▸ List.mem_cons_self s r2)
          refine ⟨c :: b0, c0, ?_, ?_⟩
          · rw [h1, hs0]; rfl
          · intro x hx
            rcases List.mem_cons.mp hx with h2 | h2
            · rw [h2]
              revert he; cases isEolChar c <;> simp
            · exact hb0 x h2
        · exact ih seg (hs ▸ List.mem_cons_of_mem s h1)

theorem splitInclusive_dropLast_eol :
    ∀ (cs : List Char) (seg : List Char), seg ∈ (splitInclusive cs).dropLast →
      ∃ b c, seg = b ++ [c] ∧ (∀ x ∈ b, isEolChar x = false) ∧ isEolChar c = true := by
  intro cs
  induction cs with
  | nil => intro seg h; cases h
  | cons c rest ih =>
    intro seg h
    by_cases he : isEolChar c = true
    · simp only [splitInclusive, if_pos he] at h
      cases hs : splitInclusive rest with
      | nil => rw [hs] at h; cases h
      | cons s r2 =>
        rw [hs, List.dropLast_cons₂] at h
        rcases List.mem_cons.mp h with h1 | h1
        · exact ⟨[], c, by rw [h1]; rfl, (by intro x hx; cases hx), he⟩
        · exact ih seg (hs ▸ h1)
    · simp only [splitInclusive, he, Bool.false_eq_true, if_false] at h
      cases hs : splitInclusive rest with
      | nil => rw [hs] at h; cases h
      | cons s r2 =>
        rw [hs] at h
        cases hr2 : r2 with
        | nil => rw [hr2] at h; cases h
        | cons s2 r3 =>
          rw [hr2, List.dropLast_cons₂] at h
          rcases List.mem_cons.mp h with h1 | h1
          · have hsmem : s ∈ (splitInclusive rest).dropLast := by
              rw [hs, hr2, List.dropLast_cons₂]
              exact List.mem_cons_self _ _
            obtain ⟨b0, c0, hs0, hb0, hc0⟩ := ih s hsmem
            refine ⟨c :: b0, c0, by rw [h1, hs0]; rfl, ?_, hc0⟩
            intro x hx
            rcases List.mem_cons.mp hx with h2 | h2
            · rw [h2]
              revert he; cases isEolChar c <;> simp
            · exact hb0 x h2
          · apply ih seg
            rw [hs, hr2, List.dropLast_cons₂]
            exact List.mem_cons_of_mem _ h1

/-! Splitting concatenations. -/

theorem splitInclusive_noeol {p : List Char} (hp : ∀ c ∈ p, isEolChar c = false) :
    splitInclusive p = if p = [] then [] else [p] := by
  induction p with
  | nil => rfl
  | cons c rest ih =>
    have hc : isEolChar c = false := hp c (List.mem_cons_self c rest)
    have ih' := ih fun x hx => hp x (List.mem_cons_of_mem c hx)
    by_cases hrest : rest = []
    · subst hrest
      rw [splitInclusive_cons_noeol_nil hc (by rfl)]
      simp
    · rw [if_neg hrest] at ih'
      rw [splitInclusive_cons_noeol_cons hc ih', if_neg (List.cons_ne_nil c rest)]

theorem splitInclusive_append_noeol_cons {p y s : List Char} {rest : List (List Char)}
    (hp : ∀ c ∈ p, isEolChar c = false) (hy : splitInclusive y = s :: rest) :
    splitInclusive (p ++ y) = (p ++ s) :: rest := by
  induction p with
  | nil => simpa using hy
  | cons c p' ih =>
    have hc : isEolChar c = false := hp c (List.mem_cons_self c p')
    have ih' := ih fun x hx => hp x (List.mem_cons_of_mem c hx)
    rw [List.cons_append, splitInclusive_cons_noeol_cons hc ih']
    rfl

theorem splitInclusive_append_eol :
    ∀ (x : List Char) (c : Char) (y : List Char), isEolChar c = true →
      splitInclusive ((x ++ [c]) ++ y) = splitInclusive (x ++ [c]) ++ splitInclusive y := by
  intro x
  induction x with
  | nil =>
    intro c y hc
    rw [List.nil_append, List.cons_append, List.nil_append,
      splitInclusive_cons_eol hc, splitInclusive_cons_eol hc]
    rfl
  | cons d x' ih =>
    intro c y hc
    have hstep : ((d :: x') ++ [c]) ++ y = d :: ((x' ++ [c]) ++ y) := by simp
    by_cases hd : isEolChar d = true
    · rw [hstep, splitInclusive_cons_eol hd, ih c y hc, List.cons_append,
        splitInclusive_cons_eol hd]
      rfl
    · have hd' : isEolChar d = false := by
        revert hd; cases isEolChar d <;> simp
      have hne : splitInclusive (x' ++ [c]) ≠ [] := by
        rw [Ne, splitInclusive_eq_nil_iff]
        simp
      cases hs : splitInclusive (x' ++ [c]) with
      | nil => exact absurd hs hne
      | cons s r2 =>
        have ih' := ih c y hc
        rw [hs] at ih'
        rw [hstep, splitInclusive_cons_noeol_cons hd' ih', List.cons_append,
          splitInclusive_cons_noeol_cons hd' hs]
        rfl

/-! No line of the masker's output starts with `#`, which gives idempotence. -/

theorem mem_of_getLast?_eq {α : Type} : ∀ {l : List α} {a : α}, l.getLast? = some a → a ∈ l := by
  intro l
  induction l with
  | nil => intro a h; cases h
  | cons x rest ih =>
    intro a h
    cases rest with
    | nil =>
      have hx : x = a := by simpa [List.getLast?] using h
      rw [hx]
      exact List.mem_cons_self a []
    | cons y rs =>
      rw [List.getLast?_cons_cons] at h
      exact List.mem_cons_of_mem x (ih h)

theorem processSegs_cons_masked {cont : Bool} {seg : List Char} {rest : List (List Char)}
    (h : (cont || startsWithHash (lineBody seg).1) = true) :
    processSegs cont (seg :: rest) =
      (List.replicate (lineBody seg).1.length ' ' ++ (lineBody seg).2) ::
        processSegs (endsBackslash (lineBody seg).1) rest := by
  simp [processSegs, h]

theorem processSegs_cons_unmasked {cont : Bool} {seg : List Char} {rest : List (List Char)}
    (h : (cont || startsWithHash (lineBody seg).1) = false) :
    processSegs cont (seg :: rest) =
      ((lineBody seg).1 ++ (lineBody seg).2) :: processSegs false rest := by
  simp [processSegs, h]

theorem processSegs_noHash :
    ∀ (segs : List (List Char)) (cont : Bool) (pre : List Char),
      (∀ c ∈ pre, c = ' ') →
      (∀ s ∈ segs, ∃ b c, s = b ++ [c] ∧ ∀ x ∈ b, isEolChar x = false) →
      (∀ s ∈ segs.dropLast, ∃ b c, s = b ++ [c] ∧ (∀ x ∈ b, isEolChar x = false) ∧
        isEolChar c = true) →
      ∀ t ∈ splitInclusive (pre ++ (processSegs cont segs).flatten),
        startsWithHash t = false := by
  intro segs
  induction segs with
  | nil =>
    intro cont pre hpre _ _ t ht
    simp only [processSegs, List.flatten_nil, List.append_nil] at ht
    rw [splitInclusive_noeol (fun c hc => by rw [hpre c hc]; exact isEolChar_space)] at ht
    by_cases hpre0 : pre = []
    · rw [if_pos hpre0] at ht; cases ht
    · rw [if_neg hpre0] at ht
      have : t = pre := List.mem_singleton.mp ht
      rw [this]
      exact startsWithHash_all_ws fun c hc => by
        rw [hpre c hc]; exact rustIsWhitespace_space
  | cons seg rest ih =>
    intro cont pre hpre hwf1 hwf2 t ht
    obtain ⟨b, c, hseg, hb⟩ := hwf1 seg (List.mem_cons_self seg rest)
    have hwf1' : ∀ s ∈ rest, ∃ b c, s = b ++ [c] ∧ ∀ x ∈ b, isEolChar x = false :=
      fun s hs => hwf1 s (List.mem_cons_of_mem _ hs)
    have hwf2' : ∀ s ∈ rest.dropLast, ∃ b c, s = b ++ [c] ∧
        (∀ x ∈ b, isEolChar x = false) ∧ isEolChar c = true := by
      intro s hs
      apply hwf2
      cases hr : rest with
      | nil => rw [hr] at hs; cases hs
      | cons r rs =>
        rw [List.dropLast_cons₂]
        exact List.mem_cons_of_mem _ (hr ▸ hs)
    have hpre_ws : ∀ x ∈ pre, rustIsWhitespace x = true := fun x hx => by
      rw [hpre x hx]; exact rustIsWhitespace_space
    by_cases hcn : c = '\n'
    · -- the segment ends in a newline
      subst hcn
      have hblast : b.getLast? ≠ some '\r' := by
        intro hlast
        have : isEolChar '\r' = false := hb _ (mem_of_getLast?_eq hlast)
        simp [isEolChar] at this
      have hlb : lineBody seg = (b, ['\n']) := by
        rw [hseg]; exact lineBody_of_nl hblast
      by_cases hm : (cont || startsWithHash (lineBody seg).1) = true
      · -- masked; output is spaces followed by the newline
        rw [processSegs_cons_masked hm] at ht
        simp only [hlb, List.flatten_cons] at ht
        have hre :
            pre ++ ((List.replicate b.length ' ' ++ ['\n']) ++
              (processSegs (endsBackslash b) rest).flatten) =
            ((pre ++ List.replicate b.length ' ') ++ ['\n']) ++
              (processSegs (endsBackslash b) rest).flatten := by
          simp [List.append_assoc]
        rw [hre, splitInclusive_append_eol _ '\n' _ (by decide)] at ht
        have hsplit1 : splitInclusive ((pre ++ List.replicate b.length ' ') ++ ['\n']) =
            [(pre ++ List.replicate b.length ' ') ++ ['\n']] := by
          have hnl : splitInclusive (['\n'] : List Char) = ['\n'] :: [] := by decide
          rw [splitInclusive_append_noeol_cons ?_ hnl]
          · intro x hx
            rcases List.mem_append.mp hx with h1 | h1
            · rw [hpre x h1]; exact isEolChar_space
            · rw [List.eq_of_mem_replicate h1]; exact isEolChar_space
        rw [hsplit1] at ht
        rcases List.mem_append.mp ht with h1 | h1
        · have : t = (pre ++ List.replicate b.length ' ') ++ ['\n'] :=
            List.mem_singleton.mp h1
          rw [this]
          apply startsWithHash_all_ws
          intro x hx
          rcases List.mem_append.mp hx with h2 | h2
          · rcases List.mem_append.mp h2 with h3 | h3
            · exact hpre_ws x h3
            · rw [List.eq_of_mem_replicate h3]; exact rustIsWhitespace_space
          · have : x = '\n' := by simpa using h2
            rw [this]; exact rustIsWhitespace_nl
        · exact ih (endsBackslash b) [] (by intro x hx; cases hx) hwf1' hwf2' t
            (by simpa using h1)
      · -- not masked; the segment is copied verbatim
        have hm' : (cont || startsWithHash (lineBody seg).1) = false := by
          revert hm; cases (cont || startsWithHash (lineBody seg).1) <;> simp
        have hmb := hm'
        simp only [hlb] at hmb
        have hhb : startsWithHash b = false := by
          revert hmb; cases cont <;> cases hhh : startsWithHash b <;> simp
        rw [processSegs_cons_unmasked hm'] at ht
        simp only [hlb, List.flatten_cons] at ht
        have hre : pre ++ ((b ++ ['\n']) ++ (processSegs false rest).flatten) =
            ((pre ++ b) ++ ['\n']) ++ (processSegs false rest).flatten := by
          simp [List.append_assoc]
        rw [hre, splitInclusive_append_eol _ '\n' _ (by decide)] at ht
        have hsplit1 : splitInclusive ((pre ++ b) ++ ['\n']) =
            [(pre ++ b) ++ ['\n']] := by
          have hnl : splitInclusive (['\n'] : List Char) = ['\n'] :: [] := by decide
          rw [splitInclusive_append_noeol_cons ?_ hnl]
          · intro x hx
            rcases List.mem_append.mp hx with h1 | h1
            · rw [hpre x h1]; exact isEolChar_space
            · exact hb x h1
        rw [hsplit1] at ht
        rcases List.mem_append.mp ht with h1 | h1
        · have heq : t = (pre ++ b) ++ ['\n'] := List.mem_singleton.mp h1
          rw [heq, startsWithHash_append_ws (by
            intro x hx
            have : x = '\n' := by simpa using hx
            rw [this]; exact rustIsWhitespace_nl),
            startsWithHash_ws_append hpre_ws]
          exact hhb
        · exact ih false [] (by intro x hx; cases hx) hwf1' hwf2' t (by simpa using h1)
    · -- the segment does not end in a newline
      have hlast : seg.getLast? = some c := by rw [hseg]; exact List.getLast?_concat _
      have hlb : lineBody seg = (seg, []) := lineBody_of_ne_nl (by
        rw [hlast]; intro hcon; exact hcn (by injection hcon))
      by_cases hm : (cont || startsWithHash (lineBody seg).1) = true
      · -- masked; output is spaces only (a bare CR terminator is blanked too)
        rw [processSegs_cons_masked hm] at ht
        simp only [hlb, List.flatten_cons, List.append_nil] at ht
        have hre : pre ++ (List.replicate seg.length ' ' ++
              (processSegs (endsBackslash seg) rest).flatten) =
            (pre ++ List.replicate seg.length ' ') ++
              (processSegs (endsBackslash seg) rest).flatten := by
          simp [List.append_assoc]
        rw [hre] at ht
        apply ih (endsBackslash seg) (pre ++ List.replicate seg.length ' ') ?_ hwf1' hwf2' t ht
        intro x hx
        rcases List.mem_append.mp hx with h1 | h1
        · exact hpre x h1
        · exact List.eq_of_mem_replicate h1
      · -- not masked
        have hm' : (cont || startsWithHash (lineBody seg).1) = false := by
          revert hm; cases (cont || startsWithHash (lineBody seg).1) <;> simp
        have hmb := hm'
        simp only [hlb] at hmb
        have hhseg : startsWithHash seg = false := by
          revert hmb; cases cont <;> cases hhh : startsWithHash seg <;> simp
        rw [processSegs_cons_unmasked hm'] at ht
        simp only [hlb, List.flatten_cons, List.append_nil] at ht
        by_cases hce : isEolChar c = true
        · -- a bare CR terminator: the segment boundary is preserved
          have hre : pre ++ (seg ++ (processSegs false rest).flatten) =
              ((pre ++ b) ++ [c]) ++ (processSegs false rest).flatten := by
            rw [hseg]; simp [List.append_assoc]
          rw [hre, splitInclusive_append_eol _ c _ hce] at ht
          have hsplit1 : splitInclusive ((pre ++ b) ++ [c]) = [(pre ++ b) ++ [c]] := by
            have hc1 : splitInclusive ([c] : List Char) = [c] :: [] := by
              rw [splitInclusive_cons_eol hce]; rfl
            rw [splitInclusive_append_noeol_cons ?_ hc1]
            · intro x hx
              rcases List.mem_append.mp hx with h1 | h1
              · rw [hpre x h1]; exact isEolChar_space
              · exact hb x h1
          rw [hsplit1] at ht
          rcases List.mem_append.mp ht with h1 | h1
          · have heq : t = (pre ++ b) ++ [c] := List.mem_singleton.mp h1
            have heq2 : (pre ++ b) ++ [c] = pre ++ seg := by rw [hseg]; simp
            rw [heq, heq2, startsWithHash_ws_append hpre_ws]
            exact hhseg
          · exact ih false [] (by intro x hx; cases hx) hwf1' hwf2' t (by simpa using h1)
        · -- no terminator at all: this is the final segment
          have hrest : rest = [] := by
            by_contra hne
            cases hr : rest with
            | nil => exact hne hr
            | cons r rs =>
              have hmem : seg ∈ (seg :: rest).dropLast := by
                rw [hr, List.dropLast_cons₂]
                exact List.mem_cons_self _ _
              obtain ⟨b2, c2, hseg2, _, hc2⟩ := hwf2 seg hmem
              have hcc : c2 = c := by
                have h1 : seg.getLast? = some c2 := by
                  rw [hseg2]; exact List.getLast?_concat _
                rw [hlast] at h1
                injection h1 with h1
                exact h1.symm
              rw [hcc] at hc2
              exact absurd hc2 (by
                revert hce; cases isEolChar c <;> simp)
          subst hrest
          simp only [processSegs, List.flatten_nil, List.append_nil] at ht
          have hnoeol : ∀ x ∈ pre ++ seg, isEolChar x = false := by
            intro x hx
            rcases List.mem_append.mp hx with h1 | h1
            · rw [hpre x h1]; exact isEolChar_space
            · rw [hseg] at h1
              rcases List.mem_append.mp h1 with h2 | h2
              · exact hb x h2
              · have : x = c := by simpa using h2
                rw [this]
                revert hce; cases isEolChar c <;> simp
          rw [splitInclusive_noeol hnoeol] at ht
          by_cases hps : pre ++ seg = []
          · rw [if_pos hps] at ht; cases ht
          · rw [if_neg hps] at ht
            have heq : t = pre ++ seg := List.mem_singleton.mp ht
            rw [heq, startsWithHash_ws_append hpre_ws]
            exact hhseg

theorem processSegs_id_of_noHash {segs : List (List Char)}
    (h : ∀ t ∈ segs, startsWithHash t = false) :
    processSegs false segs = segs := by
  induction segs with
  | nil => rfl
  | cons seg rest ih =>
    have hh : startsWithHash (lineBody seg).1 = false := by
      rw [startsWithHash_lineBody]
      exact h seg (List.mem_cons_self seg rest)
    have hcond : (false || startsWithHash (lineBody seg).1) = false := by
      rw [hh]; rfl
    simp only [processSegs, hcond, Bool.false_eq_true, if_false]
    rw [lineBody_append, ih fun t ht => h t (List.mem_cons_of_mem _ ht)]

/-- C10: `mask_preprocessor` is idempotent — masking an already-masked text
changes nothing, because no output line has `#` as its first non-whitespace
character (blanked bodies are all spaces) and a continuation is only ever
triggered by a blanked line, whose body ends in a space, never a backslash. -/
theorem c10_mask_idempotent (src : List Char) :
    mask_preprocessor (mask_preprocessor src) = mask_preprocessor src := by
  have hno : ∀ t ∈ splitInclusive (mask_preprocessor src), startsWithHash t = false := by
    intro t ht
    apply processSegs_noHash (splitInclusive src) false [] (by intro x hx; cases hx)
      (splitInclusive_mem_wf src) (splitInclusive_dropLast_eol src) t
    simpa [mask_preprocessor] using ht
  show (processSegs false (splitInclusive (mask_preprocessor src))).flatten = _
  rw [processSegs_id_of_noHash hno, flatten_splitInclusive]

/-- C5: masking is length-invariant, and every segment whose mask flag is
`false` (neither a `#`-line nor a backslash-continuation of a blanked line) is
copied into the output byte-for-byte at the same segment index; together with
`(splitInclusive src).flatten = src` this says all untouched lines of the
source are byte-identical between `src` and `mask_preprocessor src`. -/
theorem c5_mask_length_and_untouched_lines (src : List Char) :
    (mask_preprocessor src).length = src.length ∧
    (splitInclusive src).flatten = src ∧
    ∀ i : Nat, (maskFlags false (splitInclusive src)).get? i = some false →
      (processSegs false (splitInclusive src)).get? i = (splitInclusive src).get? i := by
  refine ⟨mask_preprocessor_length src, flatten_splitInclusive src, ?_⟩
  intro i h
  exact processSegs_get?_of_flag_false _ _ _ h

theorem c5_witness :
    ((maskFlags false (splitInclusive ("int a;\n#define X 1\nint b;\n".toList))).get? 2 =
      some false) ∧
    (processSegs false (splitInclusive ("int a;\n#define X 1\nint b;\n".toList))).get? 2 =
      (splitInclusive ("int a;\n#define X 1\nint b;\n".toList)).get? 2 :=
  ⟨by decide, (c5_mask_length_and_untouched_lines _).2.2 2 (by decide)⟩

/-! C6: the specification-side masker versus the code. -/

theorem maskSpecLines_eq_processSegs :
    ∀ (cont : Bool) (lines : List (List Char)),
      maskSpecLines cont lines = processSegs cont lines := by
  intro cont lines
  induction lines generalizing cont with
  | nil => rfl
  | cons line rest ih =>
    by_cases hm : (cont || startsWithHash (lineBody line).1) = true
    · rw [processSegs_cons_masked hm]
      simp only [maskSpecLines, hm, Bool.true_and, if_true, ih]
    · have hm' : (cont || startsWithHash (lineBody line).1) = false := by
        revert hm; cases (cont || startsWithHash (lineBody line).1) <;> simp
      rw [processSegs_cons_unmasked hm']
      simp only [maskSpecLines, hm', Bool.false_eq_true, if_false, Bool.false_and, ih]
      rw [lineBody_append]

theorem splitLinesNl_cons_nl (cs : List Char) :
    splitLinesNl ('\n' :: cs) = ['\n'] :: splitLinesNl cs := by
  simp [splitLinesNl]

theorem splitLinesNl_cons_ne_nil {c : Char} {cs : List Char} (h : c ≠ '\n')
    (h2 : splitLinesNl cs = []) : splitLinesNl (c :: cs) = [[c]] := by
  simp [splitLinesNl, h, h2]

theorem splitLinesNl_cons_ne_cons {c : Char} {cs s : List Char} {rest : List (List Char)}
    (h : c ≠ '\n') (h2 : splitLinesNl cs = s :: rest) :
    splitLinesNl (c :: cs) = (c :: s) :: rest := by
  simp [splitLinesNl, h, h2]

theorem splitInclusive_eq_splitLinesNl {src : List Char} (h : ∀ c ∈ src, c ≠ '\r') :
    splitInclusive src = splitLinesNl src := by
  induction src with
  | nil => rfl
  | cons c rest ih =>
    have hc : c ≠ '\r' := h c (List.mem_cons_self c rest)
    have ih' := ih fun x hx => h x (List.mem_cons_of_mem _ hx)
    by_cases hcn : c = '\n'
    · subst hcn
      rw [splitInclusive_cons_eol (by decide), splitLinesNl_cons_nl, ih']
    · have he : isEolChar c = false := by
        simp [isEolChar, hcn, hc]
      cases hs : splitInclusive rest with
      | nil =>
        have hr : rest = [] := splitInclusive_eq_nil_iff.mp hs
        subst hr
        rw [splitInclusive_cons_noeol_nil he (by rfl), splitLinesNl_cons_ne_nil hcn (by rfl)]
      | cons s r2 =>
        rw [splitInclusive_cons_noeol_cons he hs,
          splitLinesNl_cons_ne_cons hcn (ih' ▸ hs)]

/-- C6 counterexample: on CRLF sources the code and the specification's
masking contract disagree.  For `"#a\r\nb"` the code blanks the `'\r'` to a
space instead of preserving the `"\r\n"` terminator, and for a masked line
ending in `"\\\r\n"` the backslash continuation never fires because the
body's last byte is `'\r'`, so the follow-up line `y` stays unmasked. -/
theorem c6_crlf_counterexample :
    mask_preprocessor ("#a\r\nb".toList) = ("   \nb".toList) ∧
    maskSpec ("#a\r\nb".toList) = ("  \r\nb".toList) ∧
    mask_preprocessor ("#x \\\r\ny\n".toList) = ("     \ny\n".toList) ∧
    maskSpec ("#x \\\r\ny\n".toList) = ("    \r\n \n".toList) ∧
    mask_preprocessor ("#a\r\nb".toList) ≠ maskSpec ("#a\r\nb".toList) ∧
    mask_preprocessor ("#x \\\r\ny\n".toList) ≠ maskSpec ("#x \\\r\ny\n".toList) :=
  ⟨by decide, by decide, by decide, by decide, by decide, by decide⟩

/-- C6 (amended): for sources without carriage returns — i.e. all line
terminators are `"\n"` — `mask_preprocessor` behaves exactly as the
specification's per-line contract `maskSpec` prescribes: the body of every
`#`-line and of every transitively backslash-continued line is replaced by
spaces, terminators are preserved verbatim, and all other lines are kept. -/
theorem c6_mask_matches_spec_on_lf_sources (src : List Char)
    (h : ∀ c ∈ src, c ≠ '\r') : mask_preprocessor src = maskSpec src := by
  unfold mask_preprocessor maskSpec
  rw [maskSpecLines_eq_processSegs, splitInclusive_eq_splitLinesNl h]

theorem c6_witness :
    (∀ c ∈ ("#define A \\\nxy\nint f();".toList), c ≠ '\r') ∧
    mask_preprocessor ("#define A \\\nxy\nint f();".toList) =
      maskSpec ("#define A \\\nxy\nint f();".toList) :=
  ⟨by decide, c6_mask_matches_spec_on_lf_sources _ (by decide)⟩

/-- C1: contrary to the claim (and to the repository's own unit tests
`line_source_out_of_bounds_is_empty` / `line_source_returns_trimmed_line`,
which expect `""` for out-of-range offsets), `trimmed_line_by_offset` returns
an `anyhow` error when `init_row + offset` is negative or at least the number
of lines, exactly the probes of the repository's test. -/
theorem c1_out_of_range_errors :
    trimmed_line_by_offset ("only-line".toList) 0 (-1) =
      Except.error "Called nth(-1)" ∧
    trimmed_line_by_offset ("only-line".toList) 0 5 =
      Except.error "Called nth(5)" ∧
    (trimmed_line_by_offset ("only-line".toList) 0 (-1)).isOk = false ∧
    (trimmed_line_by_offset ("only-line".toList) 0 5).isOk = false :=
  ⟨by rfl, by rfl, by rfl, by rfl⟩

/-- C2: two occurrences of `f` whose doc blocks disagree (`["// X"]` versus
`["// X", "// Y"]` reading upward).  At offset `-1` both trimmed lines are the
equal comment `"// X"`, so the scan continues to offset `-2`, where the first
file has run out; instead of emitting the claimed single mismatch for the
identity, the whole check aborts with the line-lookup error. -/
theorem c2_divergent_blocks_abort_check :
    docScan [(("// X\nint f();".toList), 1), (("// Y\n// X\nint f();".toList), 2)] =
      Except.error "Called nth(-1)" ∧
    trimmed_line_by_offset ("// X\nint f();".toList) 1 (-1) =
      Except.ok ("// X".toList) ∧
    trimmed_line_by_offset ("// Y\n// X\nint f();".toList) 2 (-1) =
      Except.ok ("// X".toList) ∧
    trimmed_line_by_offset ("// X\nint f();".toList) 1 (-2) =
      Except.error "Called nth(-1)" ∧
    trimmed_line_by_offset ("// Y\n// X\nint f();".toList) 2 (-2) =
      Except.ok ("// Y".toList) :=
  ⟨by rfl, by rfl, by rfl, by rfl, by rfl⟩

/-- C3: one occurrence's comment run ends at offset `-2` because its file ran
out, while the other occurrence still has the comment line `"// E"` there.
The claim says this asymmetry is reported as a mismatch; the code instead
aborts the whole check with the line-lookup error. -/
theorem c3_asymmetric_blocks_abort_check :
    docScan [(("// D\nint g();".toList), 1), (("// E\n// D\nint g();".toList), 2)] =
      Except.error "Called nth(-1)" ∧
    trimmed_line_by_offset ("// E\n// D\nint g();".toList) 2 (-2) =
      Except.ok ("// E".toList) ∧
    isCommentLine ("// E".toList) = true ∧
    trimmed_line_by_offset ("// D\nint g();".toList) 1 (-2) =
      Except.error "Called nth(-1)" :=
  ⟨by rfl, by rfl, by rfl, by rfl⟩

/-- C4: after the `retain(|_, vec| vec.len() > 1)` filter, every entry of the
map returned by `find_function_positions` has at least two positions, so a
single-occurrence identity never appears in the index. -/
theorem c4_retained_entries_have_two_positions
    (extract : List String → List (FunctionID × Nat × Nat))
    (paths : List (List String)) (id : FunctionID) (ps : List FilePosition)
    (h : (id, ps) ∈ find_function_positions extract paths) : 2 ≤ ps.length := by
  unfold find_function_positions at h
  have h1 := List.of_mem_filter h
  have h2 : 1 < ps.length := of_decide_eq_true h1
  omega

theorem c4_witness :
    ((⟨("f".toList), ("()".toList)⟩, [⟨["a.c"], 0, 5⟩, ⟨["b.c"], 0, 5⟩]) ∈
      (find_function_positions
        (fun _ => [(⟨("f".toList), ("()".toList)⟩, 0, 5)])
        [["a.c"], ["b.c"]] : List (FunctionID × List FilePosition))) ∧
    2 ≤ ([⟨["a.c"], 0, 5⟩, ⟨["b.c"], 0, 5⟩] : List FilePosition).length :=
  ⟨by decide,
    c4_retained_entries_have_two_positions
      (fun _ => [(⟨("f".toList), ("()".toList)⟩, 0, 5)]) [["a.c"], ["b.c"]]
      ⟨("f".toList), ("()".toList)⟩ [⟨["a.c"], 0, 5⟩, ⟨["b.c"], 0, 5⟩] (by decide)⟩

/-! C8: the mismatch list as a function of the map's iteration order. -/

theorem mapME_cons_error {α β : Type} {f : α → Except String β} {a : α} {as : List α}
    {e : String} (hfa : f a = Except.error e) : mapME f (a :: as) = Except.error e := by
  simp [mapME, hfa]

theorem mapME_cons_ok_error {α β : Type} {f : α → Except String β} {a : α} {as : List α}
    {b : β} {e : String} (hfa : f a = Except.ok b) (has : mapME f as = Except.error e) :
    mapME f (a :: as) = Except.error e := by
  simp [mapME, hfa, has]

theorem mapME_cons_ok_ok {α β : Type} {f : α → Except String β} {a : α} {as : List α}
    {b : β} {bs : List β} (hfa : f a = Except.ok b) (has : mapME f as = Except.ok bs) :
    mapME f (a :: as) = Except.ok (b :: bs) := by
  simp [mapME, hfa, has]

theorem mapME_cons_ok_inv {α β : Type} {f : α → Except String β} {a : α} {as : List α}
    {r : List β} (h : mapME f (a :: as) = Except.ok r) :
    ∃ b bs, f a = Except.ok b ∧ mapME f as = Except.ok bs ∧ r = b :: bs := by
  cases hfa : f a with
  | error e => rw [mapME_cons_error hfa] at h; cases h
  | ok b =>
    cases has : mapME f as with
    | error e => rw [mapME_cons_ok_error hfa has] at h; cases h
    | ok bs =>
      rw [mapME_cons_ok_ok hfa has] at h
      injection h with h
      exact ⟨b, bs, rfl, rfl, h.symm⟩

theorem mapME_perm {α β : Type} (f : α → Except String β) :
    ∀ {l1 l2 : List α} {r1 : List β}, l1.Perm l2 → mapME f l1 = Except.ok r1 →
      ∃ r2, mapME f l2 = Except.ok r2 ∧ r1.Perm r2 := by
  intro l1 l2 r1 hp
  induction hp generalizing r1 with
  | nil => intro h; exact ⟨r1, h, List.Perm.refl r1⟩
  | cons x hp2 ih =>
    intro h
    obtain ⟨b, bs, hfx, hm, hr⟩ := mapME_cons_ok_inv h
    obtain ⟨bs2, hm2, hperm⟩ := ih hm
    exact ⟨b :: bs2, mapME_cons_ok_ok hfx hm2, hr ▸ List.Perm.cons b hperm⟩
  | swap x y l =>
    intro h
    obtain ⟨b1, r', hfy, h', hr⟩ := mapME_cons_ok_inv h
    obtain ⟨b2, bs, hfx, hm, hr2⟩ := mapME_cons_ok_inv h'
    refine ⟨b2 :: b1 :: bs, mapME_cons_ok_ok hfx (mapME_cons_ok_ok hfy hm), ?_⟩
    rw [hr, hr2]
    exact List.Perm.swap b2 b1 bs
  | trans hp1 hp2 ih1 ih2 =>
    intro h
    obtain ⟨rm, hm, hpm⟩ := ih1 h
    obtain ⟨r2, h2, hp2x⟩ := ih2 hm
    exact ⟨r2, h2, hpm.trans hp2x⟩

/-- C8 (amended): the per-identity mismatch computation depends only on the
map entry, so iterating the identity map in any two orders (Rust's `HashMap`
iteration order is an arbitrary permutation that varies between `RandomState`
instances, hence between runs) produces mismatch lists that are permutations
of each other; the list is only equal, order included, when the iteration
orders coincide. -/
theorem c8_check_perm_invariant (read : List String → Except String (List Char))
    (toml_path : List String) {e1 e2 : List (FunctionID × List FilePosition)}
    {l1 : List (List Char)} (hp : e1.Perm e2)
    (h : checkModel read toml_path e1 = Except.ok l1) :
    ∃ l2, checkModel read toml_path e2 = Except.ok l2 ∧ l1.Perm l2 := by
  unfold checkModel at h ⊢
  revert h
  cases hm : mapME (processEntry read toml_path) e1 with
  | error e => intro h; cases h
  | ok ls =>
    intro h
    injection h with h
    obtain ⟨ls2, hm2, hperm⟩ := mapME_perm _ hp hm
    rw [hm2]
    exact ⟨ls2.flatten, rfl, h ▸ hperm.flatten⟩

/-- C8 counterexample: one file group containing two identities `f` and `g`
whose doc blocks both mismatch.  Visiting the two map entries in the two
possible orders — both are realizable `HashMap` iteration orders, and the
`RandomState` seed differs between the two `check` runs — yields the two
mismatch strings in opposite orders, so the claimed equality of the lists,
order included, fails. -/
theorem c8_order_counterexample :
    checkModel
      (fun p => if p = ["w", "a.c"] then Except.ok ("// one\nint f();\n// gA\nint g();\n".toList)
        else if p = ["w", "b.c"] then Except.ok ("// two\nint f();\n// gB\nint g();\n".toList)
        else Except.error "read")
      ["w", "docwen.toml"]
      [(⟨("f".toList), ("()".toList)⟩, [⟨["w", "a.c"], 1, 0⟩, ⟨["w", "b.c"], 1, 0⟩]),
       (⟨("g".toList), ("()".toList)⟩, [⟨["w", "a.c"], 3, 0⟩, ⟨["w", "b.c"], 3, 0⟩])] =
      Except.ok [("\"// one\"\n-> [\"a.c\":1:0, \"b.c\":1:0]".toList),
        ("\"// gA\"\n-> [\"a.c\":3:0, \"b.c\":3:0]".toList)] ∧
    checkModel
      (fun p => if p = ["w", "a.c"] then Except.ok ("// one\nint f();\n// gA\nint g();\n".toList)
        else if p = ["w", "b.c"] then Except.ok ("// two\nint f();\n// gB\nint g();\n".toList)
        else Except.error "read")
      ["w", "docwen.toml"]
      [(⟨("g".toList), ("()".toList)⟩, [⟨["w", "a.c"], 3, 0⟩, ⟨["w", "b.c"], 3, 0⟩]),
       (⟨("f".toList), ("()".toList)⟩, [⟨["w", "a.c"], 1, 0⟩, ⟨["w", "b.c"], 1, 0⟩])] =
      Except.ok [("\"// gA\"\n-> [\"a.c\":3:0, \"b.c\":3:0]".toList),
        ("\"// one\"\n-> [\"a.c\":1:0, \"b.c\":1:0]".toList)] ∧
    [("\"// one\"\n-> [\"a.c\":1:0, \"b.c\":1:0]".toList),
      ("\"// gA\"\n-> [\"a.c\":3:0, \"b.c\":3:0]".toList)] ≠
    [("\"// gA\"\n-> [\"a.c\":3:0, \"b.c\":3:0]".toList),
      ("\"// one\"\n-> [\"a.c\":1:0, \"b.c\":1:0]".toList)] :=
  ⟨by rfl, by rfl, by decide⟩

theorem c8_witness :
    ∃ l2, checkModel
      (fun p => if p = ["w", "a.c"] then Except.ok ("// one\nint f();\n// gA\nint g();\n".toList)
        else if p = ["w", "b.c"] then Except.ok ("// two\nint f();\n// gB\nint g();\n".toList)
        else Except.error "read")
      ["w", "docwen.toml"]
      [(⟨("g".toList), ("()".toList)⟩, [⟨["w", "a.c"], 3, 0⟩, ⟨["w", "b.c"], 3, 0⟩]),
       (⟨("f".toList), ("()".toList)⟩, [⟨["w", "a.c"], 1, 0⟩, ⟨["w", "b.c"], 1, 0⟩])] =
      Except.ok l2 ∧
    ([("\"// one\"\n-> [\"a.c\":1:0, \"b.c\":1:0]".toList),
      ("\"// gA\"\n-> [\"a.c\":3:0, \"b.c\":3:0]".toList)] : List (List Char)).Perm l2 :=
  c8_check_perm_invariant _ _
    (List.Perm.swap (⟨("g".toList), ("()".toList)⟩,
        [⟨["w", "a.c"], 3, 0⟩, ⟨["w", "b.c"], 3, 0⟩])
      (⟨("f".toList), ("()".toList)⟩, [⟨["w", "a.c"], 1, 0⟩, ⟨["w", "b.c"], 1, 0⟩]) [])
    (by rfl)

/-- C9: `format_mismatch` strips the toml file's parent directory from each
position's path, not the configured root.  At the repository's own test input
(`formats_relative_path`: toml argument `"project"`, expecting paths relative
to it) the code keeps the full path `"project/src/lib.c"` because it strips
`parent("project") = ""`; the string also contains a newline before `"-> ["`
and Debug-quoted paths, which the test output pins.  Stripping `"src/lib.c"`
as the test expects happens only when the toml path's parent equals the
intended root, as in the third conjunct. -/
theorem c9_format_strips_toml_parent_not_root :
    format_mismatch ("needle".toList) [⟨["project", "src", "lib.c"], 42, 7⟩] ["project"] =
      ("\"needle\"\n-> [\"project/src/lib.c\":42:7]".toList) ∧
    format_mismatch ("needle".toList) [⟨["project", "src", "lib.c"], 42, 7⟩] ["project"] ≠
      ("\"needle\"\n-> [\"src/lib.c\":42:7]".toList) ∧
    format_mismatch ("needle".toList) [⟨["project", "src", "lib.c"], 42, 7⟩]
        ["project", "docwen.toml"] =
      ("\"needle\"\n-> [\"src/lib.c\":42:7]".toList) :=
  ⟨by decide, by decide, by decide⟩

/-! C7: the qualifier toggle. -/

theorem splitColAux_ne_nil : ∀ (acc cs : List Char), splitColAux acc cs ≠ [] := by
  intro acc cs
  induction acc, cs using splitColAux.induct with
  | case1 acc rest ih => rw [splitColAux.eq_1]; simp
  | case2 acc c rest hne ih => rw [splitColAux.eq_2 _ _ _ hne]; exact ih
  | case3 acc => rw [splitColAux.eq_3]; simp

theorem getLast?_cons_of_ne_nil {α : Type} {l : List α} (a : α) (h : l ≠ []) :
    (a :: l).getLast? = l.getLast? := by
  cases l with
  | nil => exact absurd rfl h
  | cons x xs => exact List.getLast?_cons_cons

theorem containsSep_append_right {x y : List Char} (h : containsSep y = true) :
    containsSep (x ++ y) = true := by
  induction x with
  | nil => simpa using h
  | cons c xr ih =>
    by_cases h1 : ∃ r1, c = ':' ∧ xr ++ y = ':' :: r1
    · obtain ⟨r1, hc, hh⟩ := h1
      rw [List.cons_append, hc, hh]
      exact containsSep.eq_1 r1
    · have hne : ∀ r1, c = ':' → xr ++ y = ':' :: r1 → False :=
        fun r1 hc hh => h1 ⟨r1, hc, hh⟩
      rw [List.cons_append, containsSep.eq_2 _ _ hne]
      exact ih

theorem containsTri_sep_tail {rest : List Char}
    (h : containsTri (':' :: ':' :: rest) = false) :
    containsTri rest = false ∧ ∀ r1, rest = ':' :: r1 → False := by
  cases rest with
  | nil => exact ⟨rfl, fun r1 h1 => by cases h1⟩
  | cons d rest2 =>
    by_cases hd : d = ':'
    · subst hd
      rw [containsTri.eq_1] at h
      cases h
    · have e1 : containsTri (':' :: ':' :: d :: rest2) = containsTri (':' :: d :: rest2) :=
        containsTri.eq_2 ':' (':' :: d :: rest2)
          (fun tail _ htl => by injection htl with _ h2; injection h2 with h2; exact hd h2)
      have e2 : containsTri (':' :: d :: rest2) = containsTri (d :: rest2) :=
        containsTri.eq_2 ':' (d :: rest2)
          (fun tail _ htl => by injection htl with h2; exact hd h2)
      rw [e1, e2] at h
      exact ⟨h, fun r1 h1 => by injection h1 with h1; exact hd h1⟩

theorem containsTri_cons_tail {c : Char} {rest : List Char}
    (h : containsTri (c :: rest) = false) : containsTri rest = false := by
  by_cases hp : ∃ tail, c = ':' ∧ rest = ':' :: ':' :: tail
  · obtain ⟨tail, hc, hr⟩ := hp
    subst hc; subst hr
    rw [containsTri.eq_1] at h
    cases h
  · have hne : ∀ tail, c = ':' → rest = ':' :: ':' :: tail → False :=
      fun tail hc hr => hp ⟨tail, hc, hr⟩
    rw [containsTri.eq_2 _ _ hne] at h
    exact h

theorem splitColAux_last :
    ∀ (acc cs : List Char), containsTri cs = false →
      ∃ t, (splitColAux acc cs).getLast? = some t ∧
        ((containsSep cs = false ∧ t = acc.reverse ++ cs) ∨
         (∃ s, cs = s ++ ':' :: ':' :: t ∧ containsSep (':' :: t) = false)) := by
  intro acc cs
  induction acc, cs using splitColAux.induct with
  | case1 acc rest ih =>
    intro h3
    obtain ⟨h3r, hnostart⟩ := containsTri_sep_tail h3
    obtain ⟨t, hlast, hcase⟩ := ih h3r
    refine ⟨t, ?_, ?_⟩
    · rw [splitColAux.eq_1, getLast?_cons_of_ne_nil _ (splitColAux_ne_nil [] rest)]
      exact hlast
    · right
      rcases hcase with ⟨hnosep, ht⟩ | ⟨s, hdecomp, hclean⟩
      · have ht' : t = rest := by simpa using ht
        subst ht'
        refine ⟨[], by simp, ?_⟩
        have hcond : ∀ r1, (':' : Char) = ':' → t = ':' :: r1 → False :=
          fun r1 _ h2 => hnostart r1 h2
        rw [containsSep.eq_2 _ _ hcond]
        exact hnosep
      · refine ⟨':' :: ':' :: s, ?_, hclean⟩
        rw [hdecomp]
        rfl
  | case2 acc c rest hne ih =>
    intro h3
    obtain ⟨t, hlast, hcase⟩ := ih (containsTri_cons_tail h3)
    refine ⟨t, ?_, ?_⟩
    · rw [splitColAux.eq_2 _ _ _ hne]; exact hlast
    · rcases hcase with ⟨hnosep, ht⟩ | ⟨s, hdecomp, hclean⟩
      · left
        refine ⟨?_, ?_⟩
        · rw [containsSep.eq_2 _ _ hne]; exact hnosep
        · rw [ht]; simp
      · right
        exact ⟨c :: s, by rw [List.cons_append, hdecomp], hclean⟩
  | case3 acc =>
    intro _
    exact ⟨acc.reverse, by rw [splitColAux.eq_3]; rfl, Or.inl ⟨rfl, by simp⟩⟩

theorem lastSegment_after_last_sep (raw : List Char) (h3 : containsTri raw = false) :
    (containsSep raw = false ∧ lastSegment raw = raw) ∨
    (∃ s, raw = s ++ ':' :: ':' :: lastSegment raw ∧
      containsSep (':' :: lastSegment raw) = false) := by
  obtain ⟨t, hlast, hcase⟩ := splitColAux_last [] raw h3
  have hL : lastSegment raw = t := by
    unfold lastSegment splitOnColons
    rw [hlast]
    rfl
  rcases hcase with ⟨hns, ht⟩ | ⟨s, hd, hc⟩
  · exact Or.inl ⟨hns, by rw [hL, ht]; simp⟩
  · exact Or.inr ⟨s, by rw [hL]; exact hd, by rw [hL]; exact hc⟩

theorem joinSep_append_singleton (sep x : List Char) :
    ∀ (l : List (List Char)), l ≠ [] →
      joinSep sep (l ++ [x]) = joinSep sep l ++ sep ++ x := by
  intro l
  induction l with
  | nil => intro h; exact absurd rfl h
  | cons y rest ih =>
    intro _
    cases hr : rest with
    | nil => simp [joinSep]
    | cons z rs =>
      subst hr
      have ih' := ih (by simp)
      show joinSep sep (y :: z :: (rs ++ [x])) = joinSep sep (y :: z :: rs) ++ sep ++ x
      have hstep : joinSep sep (y :: z :: (rs ++ [x])) =
          y ++ sep ++ joinSep sep (z :: (rs ++ [x])) := by
        simp [joinSep]
      rw [hstep, show z :: (rs ++ [x]) = (z :: rs) ++ [x] from rfl, ih']
      simp [joinSep, List.append_assoc]

theorem colonFree_head_cancel :
    ∀ {x y u v : List Char}, (':') ∉ x → (':') ∉ y →
      x ++ ':' :: u = y ++ ':' :: v → x = y ∧ u = v := by
  intro x
  induction x with
  | nil =>
    intro y u v _ hy h
    cases y with
    | nil =>
      rw [List.nil_append, List.nil_append] at h
      injection h with _ h2
      exact ⟨rfl, h2⟩
    | cons d y' =>
      rw [List.nil_append, List.cons_append] at h
      injection h with h1 _
      exfalso
      apply hy
      rw [h1]
      exact List.mem_cons_self d y'
  | cons c x' ih =>
    intro y u v hx hy h
    cases y with
    | nil =>
      rw [List.nil_append, List.cons_append] at h
      injection h with h1 _
      exfalso
      apply hx
      rw [h1]
      exact List.mem_cons_self ':' x'
    | cons d y' =>
      rw [List.cons_append, List.cons_append] at h
      injection h with h1 h2
      have hx' : (':') ∉ x' := fun hm => hx (List.mem_cons_of_mem c hm)
      have hy' : (':') ∉ y' := fun hm => hy (List.mem_cons_of_mem d hm)
      obtain ⟨hxy, huv⟩ := ih hx' hy' h2
      exact ⟨by rw [h1, hxy], huv⟩

theorem joinSep_colonFree_inj :
    ∀ (l1 l2 : List (List Char)), l1 ≠ [] → l2 ≠ [] →
      (∀ s ∈ l1, (':') ∉ s) → (∀ s ∈ l2, (':') ∉ s) →
      joinSep sepColons l1 = joinSep sepColons l2 → l1 = l2 := by
  intro l1
  induction l1 with
  | nil => intro l2 h; exact absurd rfl h
  | cons x r1 ih =>
    intro l2 _ hl2 hc1 hc2 h
    cases l2 with
    | nil => exact absurd rfl hl2
    | cons y r2 =>
      cases hr1 : r1 with
      | nil =>
        cases hr2 : r2 with
        | nil =>
          subst hr1; subst hr2
          have : x = y := by simpa [joinSep] using h
          rw [this]
        | cons z2 rs2 =>
          subst hr1; subst hr2
          exfalso
          have hxval : x = y ++ sepColons ++ joinSep sepColons (z2 :: rs2) := by
            simpa [joinSep] using h
          apply hc1 x (List.mem_cons_self x [])
          rw [hxval, sepColons]
          have : (':') ∈ y ++ [':', ':'] :=
            List.mem_append.mpr (Or.inr (List.mem_cons_self ':' _))
          rw [List.append_assoc]
          refine List.mem_append.mpr (Or.inr ?_)
          exact List.mem_append.mpr (Or.inl (List.mem_cons_self ':' _))
      | cons z1 rs1 =>
        cases hr2 : r2 with
        | nil =>
          subst hr1; subst hr2
          exfalso
          have hyval : y = x ++ sepColons ++ joinSep sepColons (z1 :: rs1) := by
            have h' := h.symm
            simpa [joinSep] using h'
          apply hc2 y (List.mem_cons_self y [])
          rw [hyval, sepColons, List.append_assoc]
          refine List.mem_append.mpr (Or.inr ?_)
          exact List.mem_append.mpr (Or.inl (List.mem_cons_self ':' _))
        | cons z2 rs2 =>
          subst hr1; subst hr2
          have hx : (':') ∉ x := hc1 x (List.mem_cons_self x _)
          have hy : (':') ∉ y := hc2 y (List.mem_cons_self y _)
          have h' : x ++ ':' :: (':' :: joinSep sepColons (z1 :: rs1)) =
              y ++ ':' :: (':' :: joinSep sepColons (z2 :: rs2)) := by
            have hL : joinSep sepColons (x :: z1 :: rs1) =
                x ++ ':' :: (':' :: joinSep sepColons (z1 :: rs1)) := by
              simp [joinSep, sepColons]
            have hR : joinSep sepColons (y :: z2 :: rs2) =
                y ++ ':' :: (':' :: joinSep sepColons (z2 :: rs2)) := by
              simp [joinSep, sepColons]
            rw [← hL, ← hR]
            exact h
          obtain ⟨hxy, htail⟩ := colonFree_head_cancel hx hy h'
          injection htail with _ htail2
          have hrec := ih (z2 :: rs2) (by simp) (by simp)
            (fun s hs => hc1 s (List.mem_cons_of_mem x hs))
            (fun s hs => hc2 s (List.mem_cons_of_mem y hs)) htail2
          rw [hxy, hrec]

theorem get_qualified_name_eq_joinSep (quals : List (List Char)) (name : List Char) :
    get_qualified_name quals name = joinSep sepColons (quals.reverse ++ [name]) := by
  cases hq : quals.reverse with
  | nil => simp [get_qualified_name, hq, joinSep]
  | cons q qs =>
    rw [get_qualified_name, hq,
      joinSep_append_singleton sepColons name (q :: qs) (by simp)]
    simp

theorem get_qualified_name_inj {raw : List Char} {q1 q2 : List (List Char)}
    (h1 : ∀ s ∈ q1, (':') ∉ s) (h2 : ∀ s ∈ q2, (':') ∉ s) (hne : q1 ≠ q2) :
    get_qualified_name q1 raw ≠ get_qualified_name q2 raw := by
  intro heq
  rw [get_qualified_name_eq_joinSep, get_qualified_name_eq_joinSep] at heq
  cases hq1 : q1.reverse with
  | nil =>
    cases hq2 : q2.reverse with
    | nil =>
      apply hne
      rw [List.reverse_eq_nil_iff.mp hq1, List.reverse_eq_nil_iff.mp hq2]
    | cons y ys =>
      rw [hq1, hq2, List.nil_append,
        joinSep_append_singleton sepColons raw (y :: ys) (by simp)] at heq
      rw [show joinSep sepColons [raw] = raw from by simp [joinSep]] at heq
      have hlen := congrArg List.length heq
      rw [List.length_append, List.length_append] at hlen
      have hsep : sepColons.length = 2 := rfl
      omega
  | cons x xs =>
    cases hq2 : q2.reverse with
    | nil =>
      rw [hq1, hq2, List.nil_append,
        joinSep_append_singleton sepColons raw (x :: xs) (by simp)] at heq
      rw [show joinSep sepColons [raw] = raw from by simp [joinSep]] at heq
      have hlen := congrArg List.length heq
      rw [List.length_append, List.length_append] at hlen
      have hsep : sepColons.length = 2 := rfl
      omega
    | cons y ys =>
      rw [hq1, hq2,
        joinSep_append_singleton sepColons raw (x :: xs) (by simp),
        joinSep_append_singleton sepColons raw (y :: ys) (by simp)] at heq
      have h3 := List.append_cancel_right heq
      have h4 := List.append_cancel_right h3
      have h5 : (x :: xs) = (y :: ys) := by
        refine joinSep_colonFree_inj _ _ (by simp) (by simp) ?_ ?_ h4
        · intro s hs
          exact h1 s (List.mem_reverse.mp (hq1 ▸ hs))
        · intro s hs
          exact h2 s (List.mem_reverse.mp (hq2 ▸ hs))
      apply hne
      apply List.reverse_injective
      rw [hq1, hq2, h5]

/-- C7: the qualifier toggle.  With `use_qualifiers = true`, two declarations
with the same raw name and the same parameter text that sit in different
scope chains (distinct qualifier lists, each qualifier free of `':'`, as
C/C++ scope names are) always produce different `FunctionID`s, so they are
never merged.  With `use_qualifiers = false`, the identity's name is exactly
the portion of the raw declarator name after its last `"::"` (the raw name
kept whole when it has none; `raw` free of `":::"` makes "last `::`"
unambiguous), the qualifier chain is ignored entirely, and any two
declarators agreeing on that final segment and on the parameter text are
merged into one identity. -/
theorem c7_qualifier_toggle :
    (∀ (raw : List Char) (p : Option (List Char)) (q1 q2 : List (List Char)),
      (∀ s ∈ q1, (':') ∉ s) → (∀ s ∈ q2, (':') ∉ s) → q1 ≠ q2 →
      get_function_id raw p q1 true ≠ get_function_id raw p q2 true) ∧
    (∀ (raw : List Char) (p : Option (List Char)) (q : List (List Char)),
      get_function_id raw p q false = ⟨lastSegment raw, p.getD ("()".toList)⟩) ∧
    (∀ raw : List Char, containsTri raw = false →
      (containsSep raw = false ∧ lastSegment raw = raw) ∨
      (∃ s, raw = s ++ ':' :: ':' :: lastSegment raw ∧
        containsSep (':' :: lastSegment raw) = false)) ∧
    (∀ (raw1 raw2 : List Char) (p1 p2 : Option (List Char)) (q1 q2 : List (List Char)),
      lastSegment raw1 = lastSegment raw2 →
      p1.getD ("()".toList) = p2.getD ("()".toList) →
      get_function_id raw1 p1 q1 false = get_function_id raw2 p2 q2 false) := by
  refine ⟨?_, ?_, ?_, ?_⟩
  · intro raw p q1 q2 h1 h2 hne heq
    simp only [get_function_id, if_true, FunctionID.mk.injEq] at heq
    exact get_qualified_name_inj h1 h2 hne heq.1
  · intro raw p q
    rfl
  · exact lastSegment_after_last_sep
  · intro raw1 raw2 p1 p2 q1 q2 hseg hp
    simp only [get_function_id, Bool.false_eq_true, if_false, FunctionID.mk.injEq]
    exact ⟨hseg, hp⟩

theorem c7_witness :
    ((∀ s ∈ [("n2".toList), ("n1".toList)], (':') ∉ s) ∧
     (∀ s ∈ [("n1".toList)], (':') ∉ s) ∧
     ([("n2".toList), ("n1".toList)] ≠ [("n1".toList)]) ∧
     get_function_id ("log".toList) (some ("(Args&&...)".toList))
        [("n2".toList), ("n1".toList)] true ≠
       get_function_id ("log".toList) (some ("(Args&&...)".toList))
        [("n1".toList)] true) ∧
    (containsTri ("ns::C::bar".toList) = false ∧
     ((containsSep ("ns::C::bar".toList) = false ∧
        lastSegment ("ns::C::bar".toList) = ("ns::C::bar".toList)) ∨
      (∃ s, ("ns::C::bar".toList) = s ++ ':' :: ':' :: lastSegment ("ns::C::bar".toList) ∧
        containsSep (':' :: lastSegment ("ns::C::bar".toList)) = false))) :=
  ⟨⟨by decide, by decide, by decide,
    c7_qualifier_toggle.1 _ _ _ _ (by decide) (by decide) (by decide)⟩,
   ⟨by decide, c7_qualifier_toggle.2.2.1 _ (by decide)⟩⟩

end Docwen
